import Mathlib

/-!
# Verification of the bookmark store, sticky adjustment, navigation and toggle logic

This development is a shallow embedding, in Lean 4, of the marker-store core of a
VS Code bookmarks extension:

* `src/global/globalBookmarks.ts` / the `GlobalBookmarksManager` class re-exported
  through `src/core/container.ts` (store representation, `indexOfBookmark`, `toggle`,
  `addBookmark`, `removeBookmark`, `updateBookmarkLine`, `load`, `save`);
* `updateStickyGlobalBookmarks` in `src/extension.ts` (the sticky adjustment engine
  for global bookmarks);
* `nextBookmark` and `listBookmarks` in `src/core/operations.ts` (navigation and
  listing/pruning);
* the `bookmarks.toggleGlobal` command handler in `src/extension.ts`
  (multi-selection toggle policies);
* `loadBookmarks` in `src/storage/workspaceState.ts` (project-scope load paths).

Conventions of the embedding:

* A JavaScript `number` holding a line or column is modelled as `Int`.
* A store (`GlobalFile.bookmarks`) is a `List Bookmark` in array order.
* `Array.prototype.splice(idx, 1)` at the index returned by `indexOfBookmark`
  (the first index whose `line` matches) is modelled by `removeFirstByLine`,
  and the in-place field assignments at that index by `collapseFirstByLine` /
  `setLabelFirstByLine`; these replicate the source's first-match-by-line
  index arithmetic without carrying explicit indices.
* `JSON.parse`, the VS Code configuration and document accesses are inputs of the
  embedded functions (parse outcome, configuration booleans, the blank-line test
  on the live document text used by the sticky engine).
-/

/-- A bookmark record: `{ line, column, label }` (`src/core/bookmark.ts` shape, as
used throughout `globalBookmarks.ts`). -/
structure Bookmark where
  line : Int
  column : Int
  label : String
deriving Repr, DecidableEq

instance : Inhabited Bookmark := ⟨⟨0, 0, ""⟩⟩

/-- The store invariant claimed by the spec: the bookmark sequence is strictly
sorted ascending by `line` (which in particular makes lines pairwise distinct). -/
def StoreInv (bks : List Bookmark) : Prop :=
  bks.Pairwise (fun a b => a.line < b.line)

instance (bks : List Bookmark) : Decidable (StoreInv bks) := by
  unfold StoreInv; infer_instance

/-- Lines of a store are pairwise distinct (consequence of `StoreInv` used by several
lemmas). -/
def LinesNodup (bks : List Bookmark) : Prop :=
  bks.Pairwise (fun a b => a.line ≠ b.line)

/-- `GlobalBookmarksManager.indexOfBookmark` scans for the first bookmark with the
given line; we model the found/not-found outcome (`index >= 0` in the source)
as a `Bool` via `List.any`. -/
def hasBookmarkAt (bks : List Bookmark) (line : Int) : Bool :=
  bks.any (fun b => b.line = line)

/-- `file.bookmarks.splice(indexOfBookmark(file, line), 1)`: remove the first
bookmark whose `line` matches (no-op when none matches, mirroring the
`idx >= 0` guards in the source). -/
def removeFirstByLine (line : Int) : List Bookmark → List Bookmark
  | [] => []
  | b :: bs => if b.line = line then bs else b :: removeFirstByLine line bs

/-- `manager.updateBookmarkLine(file, indexOfBookmark(file, line), newLine)`:
rewrite the `line` field of the first bookmark whose `line` matches, in place. -/
def collapseFirstByLine (line newLine : Int) : List Bookmark → List Bookmark
  | [] => []
  | b :: bs =>
    if b.line = line then { b with line := newLine } :: bs
    else b :: collapseFirstByLine line newLine bs

/-- `file.bookmarks[indexOfBookmark(file, line)].label = label`: rewrite the
`label` field of the first bookmark whose `line` matches, in place. -/
def setLabelFirstByLine (line : Int) (label : String) : List Bookmark → List Bookmark
  | [] => []
  | b :: bs =>
    if b.line = line then { b with label := label } :: bs
    else b :: setLabelFirstByLine line label bs

/-- `file.bookmarks.sort((a, b) => a.line - b.line)`: the ascending sort by `line`
used by `addBookmark`.  `Array.prototype.sort` is a stable sort (ECMA-262), so
it is modelled by a stable sort; insertion sort is used because it evaluates by
kernel reduction. -/
def sortByLine (bks : List Bookmark) : List Bookmark :=
  bks.insertionSort (fun a b => a.line ≤ b.line)

/-- `GlobalBookmarksManager.addBookmark(uri, line, column, label?)` restricted to
its effect on the store: push `{line, column, label: label || ""}` and re-sort by
line.  (The line-preview lookup and the change event carry no store state.) -/
def addBookmark (bks : List Bookmark) (line column : Int) (label : Option String) :
    List Bookmark :=
  sortByLine (bks ++ [{ line := line, column := column, label := label.getD "" }])

/-- Which store event `toggle` fires: `onDidAddBookmark`, `onDidRemoveBookmark` or
`onDidUpdateBookmark` (the source's boolean return distinguishes only
added/not-added; the relabel case is observable through the update event). -/
inductive ToggleOutcome where
  | added
  | removed
  | updated
deriving Repr, DecidableEq

/-- `GlobalBookmarksManager.toggle(uri, line, column, label?)`: if a bookmark
exists at `line` and a non-`undefined`, non-empty label was supplied, edit the
label in place; if one exists otherwise, remove it; else add one. -/
def toggle (bks : List Bookmark) (line column : Int) (label : Option String) :
    List Bookmark × ToggleOutcome :=
  if hasBookmarkAt bks line then
    match label with
    | some l =>
      if l ≠ "" then (setLabelFirstByLine line l bks, .updated)
      else (removeFirstByLine line bks, .removed)
    | none => (removeFirstByLine line bks, .removed)
  else
    (addBookmark bks line column label, .added)

/-- One entry of `event.contentChanges` as consumed by
`updateStickyGlobalBookmarks`: the replaced half-open line range
`[startLine, endLine)` (`change.range`), the character where the change starts
(`change.range.start.character`) and the number of `"\n"` characters in the
replacement text (`(change.text.match(/\n/g) || []).length`; the source's
`isAdd = change.text.includes("\n")` is `textNewlines ≠ 0`). -/
structure ContentChange where
  startLine : Int
  endLine : Int
  startChar : Int
  textNewlines : Nat
deriving Repr, DecidableEq

/-- The column-0 heuristic of `updateStickyGlobalBookmarks`: when
`change.range.start.character > 0`, the source inspects the live post-edit text
of line `startLine` and treats the edit as column 0 when that text is blank
after stripping tabs and whitespace.  The blank test on the live document is an
input here (`lineBlankAfterEdit`). -/
def effectiveChar (startChar : Int) (lineBlankAfterEdit : Bool) : Int :=
  if startChar > 0 ∧ lineBlankAfterEdit then 0 else startChar

/-- The `isAdd` pass: every bookmark with
`(bkmLine > eventLine && eventChar > 0) || (bkmLine >= eventLine && eventChar === 0)`
has its line moved down by the number of inserted newlines
(`manager.updateBookmarkLine(globalFile, i, bkmLine + numberOfLinesAdded)`,
applied at every index). -/
def stickyInsertShift (eventLine eventChar : Int) (numberOfLinesAdded : Nat)
    (bks : List Bookmark) : List Bookmark :=
  bks.map fun b =>
    if (eventLine < b.line ∧ 0 < eventChar) ∨ (eventLine ≤ b.line ∧ eventChar = 0)
    then { b with line := b.line + numberOfLinesAdded } else b

/-- One iteration of the `isDel` removal loop, at one `line` of the deleted range:
if a bookmark sits at `line`, then with `keepBookmarksOnLineDelete` it is collapsed
onto `change.range.end.line` unless a bookmark already sits there (then it is
spliced out); without the option it is spliced out. -/
def deleteRangeStep (keep : Bool) (endLine : Int) (bks : List Bookmark)
    (line : Int) : List Bookmark :=
  if hasBookmarkAt bks line then
    if keep then
      if hasBookmarkAt bks endLine then removeFirstByLine line bks
      else collapseFirstByLine line endLine bks
    else removeFirstByLine line bks
  else bks

/-- `for (let line = change.range.start.line; line < change.range.end.line; line++)`:
iterate `deleteRangeStep` over the deleted range, `n` lines starting at `line`. -/
def deleteRangePass (keep : Bool) (endLine : Int) :
    Nat → Int → List Bookmark → List Bookmark
  | 0, _, bks => bks
  | n + 1, line, bks =>
    deleteRangePass keep endLine n (line + 1) (deleteRangeStep keep endLine bks line)

/-- The `isDel` shift pass: every surviving bookmark with
`(bkmLine > eventLine && eventChar > 0) || (bkmLine >= eventLine && eventChar === 0)`
has its line moved up by `numberOfLinesDeleted`.  (The source re-derives
`eventChar` from the live document inside the loop; the lookup is
loop-invariant, so it is computed once here.) -/
def stickyDeleteShift (eventLine eventChar numberOfLinesDeleted : Int)
    (bks : List Bookmark) : List Bookmark :=
  bks.map fun b =>
    if (eventLine < b.line ∧ 0 < eventChar) ∨ (eventLine ≤ b.line ∧ eventChar = 0)
    then { b with line := b.line - numberOfLinesDeleted } else b

/-- One `change` of the `updateStickyGlobalBookmarks` loop body: classify as
insertion and/or deletion, skip when neither, run the insert pass then (for a
deletion) the range-removal pass followed by the shift pass. -/
def applyContentChange (keep : Bool) (c : ContentChange) (lineBlankAfterEdit : Bool)
    (bks : List Bookmark) : List Bookmark :=
  let isAdd := c.textNewlines ≠ 0
  let isDel := c.startLine < c.endLine
  if ¬isAdd ∧ ¬isDel then bks
  else
    let eventChar := effectiveChar c.startChar lineBlankAfterEdit
    let bks1 := if isAdd then stickyInsertShift c.startLine eventChar c.textNewlines bks
                else bks
    if isDel then
      let d := c.endLine - c.startLine
      stickyDeleteShift c.startLine eventChar d
        (deleteRangePass keep c.endLine d.toNat c.startLine bks1)
    else bks1

/-- `updateStickyGlobalBookmarks(event, globalFile, editor, manager)` restricted to
its effect on `globalFile.bookmarks`: fold the per-change body over
`event.contentChanges` (each change paired with the blank-line test on the
post-edit document it reads). -/
def updateStickyGlobalBookmarks (keep : Bool)
    (changes : List (ContentChange × Bool)) (bks : List Bookmark) : List Bookmark :=
  changes.foldl (fun cur cb => applyContentChange keep cb.1 cb.2 cur) bks

/-- Direction argument of `nextBookmark` (`Directions` in `src/core/constants.ts`). -/
inductive Directions where
  | forward
  | backward
deriving Repr, DecidableEq

/-- Outcome of a `nextBookmark` call: either a concrete position or one of the
sentinels `NO_BOOKMARKS`, `NO_MORE_BOOKMARKS`, `NO_BOOKMARKS_BEFORE`,
`NO_BOOKMARKS_AFTER` (opaque numeric constants in `src/core/constants.ts`,
modelled as distinct constructors). -/
inductive NavResult where
  | at (line column : Int)
  | noBookmarks
  | noMoreBookmarks
  | noBookmarksBefore
  | noBookmarksAfter
deriving Repr, DecidableEq

/-- `nextBookmark(bookmarks, currentPosition, direction)` from
`src/core/operations.ts` (the configuration reads
`bookmarks.navigateThroughAllFiles` and `bookmarks.wrapNavigation` are passed
as arguments).  The forward scan takes the first array element with
`element.line > currentPosition.line` (the `for … break` loop); the backward
scan walks the array from the last index down and takes the first with
`element.line < currentPosition.line`. -/
def nextBookmark (bks : List Bookmark) (curLine curColumn : Int)
    (direction : Directions) (navigateThroughAllFiles wrapNavigation : Bool) :
    NavResult :=
  if bks.isEmpty then
    if navigateThroughAllFiles then .noBookmarks else .at curLine curColumn
  else
    match direction with
    | .forward =>
      match bks.find? (fun b => curLine < b.line) with
      | some b => .at b.line b.column
      | none =>
        if navigateThroughAllFiles then .noMoreBookmarks
        else if !wrapNavigation then .noBookmarksAfter
        else .at (bks.headD default).line (bks.headD default).column
    | .backward =>
      match bks.reverse.find? (fun b => b.line < curLine) with
      | some b => .at b.line b.column
      | none =>
        if navigateThroughAllFiles then .noMoreBookmarks
        else if !wrapNavigation then .noBookmarksBefore
        else .at (bks.getLastD default).line (bks.getLastD default).column

/-- `Array.prototype.indexOf(<Bookmark>{ line: … })` in `listBookmarks`
(`src/core/operations.ts`): `indexOf` compares with strict equality (`===`), and
a freshly constructed object literal is never reference-equal to an element of
the array, so the call returns `-1` regardless of the array's contents. -/
def jsIndexOfFreshObject (_bks : List Bookmark) : Int :=
  -1

/-- JavaScript `array.splice(start, 1)` as used on the store in `listBookmarks`:
a negative `start` counts from the end (clamped at 0), and one element at the
resulting index is removed (removing nothing when the index is past the end). -/
def jsSpliceOne (start : Int) (bks : List Bookmark) : List Bookmark :=
  let s : Nat := if start < 0 then (bks.length + start).toNat else start.toNat
  bks.eraseIdx s

/-- The invalid-bookmark pruning of `listBookmarks`: a bookmark is listed when its
1-based line `bookmarkLine = line + 1` satisfies `bookmarkLine <= doc.lineCount`;
otherwise `bookmarkLine` is pushed onto `invalids`, and afterwards, for each
invalid entry, `file.bookmarks.splice(file.bookmarks.indexOf({line: …}), 1)`
is executed (which, per `jsIndexOfFreshObject`, always splices at `-1`). -/
def listBookmarksPrune (bks : List Bookmark) (lineCount : Int) : List Bookmark :=
  let invalids : List Int :=
    (bks.filter (fun b => !(b.line + 1 ≤ lineCount))).map (fun b => b.line + 1)
  invalids.foldl (fun cur _inv => jsSpliceOne (jsIndexOfFreshObject cur) cur) bks

/-- A `GlobalFile` record `{ path, bookmarks }` (`globalBookmarks.ts`). -/
structure GlobalFile where
  path : String
  bookmarks : List Bookmark
deriving Repr, DecidableEq

/-- Outcome of `JSON.parse` on the persisted `globalBookmarks` blob, as seen by
`GlobalBookmarksManager.load`: the parse may throw, or produce a non-array
value, or produce an array of `GlobalFile` records. -/
inductive ParsedState where
  | parseError
  | notArray
  | array (files : List GlobalFile)

/-- `GlobalBookmarksManager.load()` restricted to its effect on `this._files`
(initially `prior`): an empty saved string leaves the store alone; a parse
failure logs, surfaces an error message and resets `_files` to `[]`; a parsed
non-array leaves `_files` alone; a parsed array replaces `_files`, normalizing
each `path` (the path normalization is the abstract `normalizePath` argument;
it does not touch bookmarks). -/
def loadGlobalFiles (normalizePath : String → String) (prior : List GlobalFile)
    (savedEmpty : Bool) (parsed : ParsedState) : List GlobalFile :=
  if savedEmpty then prior
  else
    match parsed with
    | .parseError => []
    | .notArray => prior
    | .array fs => fs.map fun f => { f with path := normalizePath f.path }

/-- One iteration of the `bookmarks.toggleGlobal` selection loop
(`src/extension.ts`): skip lines already in `toggledLines`; with
`forceState === "on"` add a bookmark when the line has none; with
`forceState === "off"` remove the bookmark when the line has one; with no force
state, `toggle`.  The state is the store paired with `toggledLines`. -/
def toggleGlobalStep (forceState : Option Bool)
    (st : List Bookmark × List Int) (sel : Int × Int) : List Bookmark × List Int :=
  if sel.1 ∈ st.2 then st
  else
    let toggled := st.2 ++ [sel.1]
    match forceState with
    | some true =>
      (if hasBookmarkAt st.1 sel.1 then st.1 else addBookmark st.1 sel.1 sel.2 none,
       toggled)
    | some false =>
      (if hasBookmarkAt st.1 sel.1 then removeFirstByLine sel.1 st.1 else st.1,
       toggled)
    | none => ((toggle st.1 sel.1 sel.2 none).1, toggled)

/-- The `bookmarks.toggleGlobal` command handler restricted to one file's store:
`selections` is the list of `(active.line, active.character)` pairs; when
`multicursor.toggleMode` is `"allLinesAtOnce"` and more than one selection is
present, `forceState` is decided **before the loop** from whether every
selection line already has a bookmark (`"off"`, i.e. `some false`, when all do;
`"on"` otherwise); then the selection loop runs. -/
def toggleGlobalCommand (bks : List Bookmark) (selections : List (Int × Int))
    (allLinesAtOnce : Bool) : List Bookmark :=
  let forceState : Option Bool :=
    if allLinesAtOnce ∧ selections.length > 1 then
      some (!(selections.all (fun s => hasBookmarkAt bks s.1)))
    else none
  (selections.foldl (toggleGlobalStep forceState) (bks, [])).1

/-- `loadBookmarks(workspaceFolder)` from `src/storage/workspaceState.ts`,
restricted to which controller store the load produces — or whether it throws.
The controller state is opaque here (`α`): `newController` is the freshly
constructed empty controller, `loadFrom c j second` is
`newController.loadFrom(j, second)` on the opaque parsed-JSON type `J`, and each
read/parse of a persisted blob is an input (`Except.error` when it throws).
With `saveBookmarksInProject`: a missing project file returns the empty
controller, and the `try { readFileUri …; loadFrom(contents, true) } catch`
block returns the empty controller when the read or its `JSON.parse` throws
(after `window.showErrorMessage`).  Without it: an empty `workspaceState`
`"bookmarks"` value returns the empty controller, and otherwise
`newController.loadFrom(JSON.parse(savedBookmarks))` runs with **no
try/catch**, so a throwing `JSON.parse` propagates out of `loadBookmarks`. -/
def loadBookmarks {α J : Type} (newController : α) (loadFrom : α → J → Bool → α)
    (saveBookmarksInProject projectFileExists : Bool)
    (projectRead : Except Unit J) (savedEmpty : Bool)
    (workspaceParse : Except Unit J) : Except Unit α :=
  if saveBookmarksInProject then
    if !projectFileExists then .ok newController
    else
      match projectRead with
      | .ok contents => .ok (loadFrom newController contents true)
      | .error _ => .ok newController
  else
    if savedEmpty then .ok newController
    else
      match workspaceParse with
      | .ok v => .ok (loadFrom newController v false)
      | .error _ => .error ()

instance : IsTotal Bookmark (fun a b => a.line ≤ b.line) :=
  ⟨fun a b => Int.le_total a.line b.line⟩

instance : IsTrans Bookmark (fun a b => a.line ≤ b.line) :=
  ⟨fun _ _ _ h1 h2 => le_trans h1 h2⟩

instance : IsAntisymm Bookmark (fun a b => a.line < b.line) :=
  ⟨fun _ _ h1 h2 => absurd (lt_trans h1 h2) (lt_irrefl _)⟩

/-- Helper for reasoning about the pruning loop: drop the last element `n` times. -/
def dropLastN : Nat → List Bookmark → List Bookmark
  | 0, l => l
  | n + 1, l => dropLastN n l.dropLast

/-- The membership test of the removal loop: does a bookmark's line lie in the
deleted half-open range `[s, e)`? -/
def inDelRange (s e : Int) (b : Bookmark) : Bool :=
  decide (s ≤ b.line) && decide (b.line < e)

/-! ## Basic store lemmas -/

theorem StoreInv.linesNodup {bks : List Bookmark} (h : StoreInv bks) : LinesNodup bks :=
  h.imp (fun hlt => Int.ne_of_lt hlt)

theorem hasBookmarkAt_iff {bks : List Bookmark} {l : Int} :
    hasBookmarkAt bks l = true ↔ ∃ b ∈ bks, b.line = l := by
  simp [hasBookmarkAt]

theorem hasBookmarkAt_eq_false_iff {bks : List Bookmark} {l : Int} :
    hasBookmarkAt bks l = false ↔ ∀ b ∈ bks, b.line ≠ l := by
  simp [hasBookmarkAt]

theorem removeFirstByLine_of_not_has {bks : List Bookmark} {l : Int}
    (h : hasBookmarkAt bks l = false) : removeFirstByLine l bks = bks := by
  induction bks with
  | nil => rfl
  | cons b bs ih =>
    rw [hasBookmarkAt_eq_false_iff] at h
    have hb : b.line ≠ l := h b (by simp)
    simp only [removeFirstByLine, if_neg hb]
    rw [ih]
    rw [hasBookmarkAt_eq_false_iff]
    exact fun x hx => h x (by simp [hx])

theorem removeFirstByLine_eq_filter {bks : List Bookmark} {l : Int}
    (h : LinesNodup bks) :
    removeFirstByLine l bks = bks.filter (fun b => b.line ≠ l) := by
  induction bks with
  | nil => rfl
  | cons b bs ih =>
    rcases List.pairwise_cons.mp h with ⟨hb, hbs⟩
    by_cases hbl : b.line = l
    · simp only [removeFirstByLine, if_pos hbl]
      rw [List.filter_cons_of_neg (by simpa using hbl)]
      symm
      apply List.filter_eq_self.mpr
      intro x hx
      simpa using fun hxl => (hb x hx) (hbl.trans hxl.symm)
    · simp only [removeFirstByLine, if_neg hbl]
      rw [List.filter_cons_of_pos (by simpa using hbl), ih hbs]

theorem removeFirstByLine_sublist (l : Int) (bks : List Bookmark) :
    (removeFirstByLine l bks).Sublist bks := by
  induction bks with
  | nil => simp [removeFirstByLine]
  | cons b bs ih =>
    by_cases hbl : b.line = l
    · simp only [removeFirstByLine, if_pos hbl]
      exact (List.sublist_cons_self b bs)
    · simp only [removeFirstByLine, if_neg hbl]
      exact ih.cons₂ b

theorem setLabelFirstByLine_eq_map {bks : List Bookmark} {l : Int} {lab : String}
    (h : LinesNodup bks) :
    setLabelFirstByLine l lab bks =
      bks.map (fun b => if b.line = l then { b with label := lab } else b) := by
  induction bks with
  | nil => rfl
  | cons b bs ih =>
    rcases List.pairwise_cons.mp h with ⟨hb, hbs⟩
    by_cases hbl : b.line = l
    · simp only [setLabelFirstByLine, if_pos hbl, List.map_cons, if_pos hbl]
      congr 1
      have hall : ∀ x ∈ bs, (if x.line = l then { x with label := lab } else x) = x := by
        intro x hx
        rw [if_neg]
        intro hxl
        exact (hb x hx) (hbl.trans hxl.symm)
      rw [List.map_congr_left hall]
      simp

    · simp only [setLabelFirstByLine, if_neg hbl, List.map_cons, if_neg hbl, ih hbs]

theorem setLabelFirstByLine_lines {bks : List Bookmark} {l : Int} {lab : String} :
    (setLabelFirstByLine l lab bks).map (fun b => b.line) =
      bks.map (fun b => b.line) := by
  induction bks with
  | nil => rfl
  | cons b bs ih =>
    by_cases hbl : b.line = l
    · simp [setLabelFirstByLine, if_pos hbl]
    · simp [setLabelFirstByLine, if_neg hbl, ih]

/-! ## Sorting and invariant lemmas -/

theorem sortByLine_perm (bks : List Bookmark) : (sortByLine bks).Perm bks :=
  List.perm_insertionSort _ _

theorem sortByLine_sorted (bks : List Bookmark) :
    (sortByLine bks).Pairwise (fun a b => a.line ≤ b.line) :=
  List.sorted_insertionSort _ _

theorem LinesNodup.perm {l₁ l₂ : List Bookmark} (p : l₁.Perm l₂)
    (h : LinesNodup l₁) : LinesNodup l₂ :=
  (List.Perm.pairwise_iff (fun {_ _} hne => Ne.symm hne) p).mp h

theorem storeInv_of_le_ne {l : List Bookmark}
    (h1 : l.Pairwise (fun a b => a.line ≤ b.line)) (h2 : LinesNodup l) :
    StoreInv l :=
  (h1.and h2).imp (fun hab => lt_of_le_of_ne hab.1 hab.2)

theorem storeInv_iff_lines {l : List Bookmark} :
    StoreInv l ↔ (l.map (fun b => b.line)).Pairwise (fun a b => a < b) := by
  unfold StoreInv
  rw [List.pairwise_map]

theorem addBookmark_perm (bks : List Bookmark) (line column : Int)
    (label : Option String) :
    (addBookmark bks line column label).Perm
      (bks ++ [{ line := line, column := column, label := label.getD "" }]) :=
  sortByLine_perm _

theorem addBookmark_inv {bks : List Bookmark} {line column : Int}
    {label : Option String} (h : StoreInv bks)
    (hnot : hasBookmarkAt bks line = false) :
    StoreInv (addBookmark bks line column label) := by
  apply storeInv_of_le_ne (sortByLine_sorted _)
  apply LinesNodup.perm (sortByLine_perm _).symm
  rw [LinesNodup, List.pairwise_append]
  refine ⟨h.linesNodup, List.pairwise_singleton _ _, ?_⟩
  intro a ha b hb
  rcases List.mem_singleton.mp hb with rfl
  simpa using (hasBookmarkAt_eq_false_iff.mp hnot) a ha

theorem StoreInv.removeFirst {bks : List Bookmark} (h : StoreInv bks) (l : Int) :
    StoreInv (removeFirstByLine l bks) :=
  List.Pairwise.sublist (removeFirstByLine_sublist l bks) h

theorem StoreInv.setLabel {bks : List Bookmark} (h : StoreInv bks) (l : Int)
    (lab : String) : StoreInv (setLabelFirstByLine l lab bks) := by
  rw [storeInv_iff_lines, setLabelFirstByLine_lines]
  exact storeInv_iff_lines.mp h

theorem toggle_inv {bks : List Bookmark} {line column : Int}
    {label : Option String} (h : StoreInv bks) :
    StoreInv (toggle bks line column label).1 := by
  unfold toggle
  by_cases hhas : hasBookmarkAt bks line
  · rw [if_pos hhas]
    cases label with
    | none => exact h.removeFirst line
    | some l =>
      dsimp only
      by_cases hl : l ≠ ""
      · rw [if_pos hl]
        exact h.setLabel line l
      · rw [if_neg hl]
        exact h.removeFirst line
  · rw [if_neg hhas]
    exact addBookmark_inv h (by simpa using hhas)

/-! ## Auxiliary counting lemma -/

theorem countP_line_eq_one {bks : List Bookmark} {l : Int} (h : LinesNodup bks)
    (hh : hasBookmarkAt bks l = true) :
    bks.countP (fun b => b.line = l) = 1 := by
  induction bks with
  | nil => simp [hasBookmarkAt] at hh
  | cons b bs ih =>
    rcases List.pairwise_cons.mp h with ⟨hb, hbs⟩
    by_cases hbl : b.line = l
    · rw [List.countP_cons_of_pos _ _ (by simpa using hbl)]
      have hz : bs.countP (fun b => b.line = l) = 0 := by
        apply List.countP_eq_zero.mpr
        intro x hx
        simpa using fun hxl => (hb x hx) (hbl.trans hxl.symm)
      omega
    · rw [List.countP_cons_of_neg _ _ (by simpa using hbl)]
      apply ih hbs
      rcases hasBookmarkAt_iff.mp hh with ⟨x, hx, hxl⟩
      rcases List.mem_cons.mp hx with rfl | hx'
      · exact absurd hxl hbl
      · exact hasBookmarkAt_iff.mpr ⟨x, hx', hxl⟩

/-! ## Claim C9: malformed persisted blob on load -/

/-- C9.  The claim says every scope's load discards a malformed persisted blob and
starts that scope from an empty store, surfacing a warning rather than aborting.
Evaluating the code at a malformed blob: (1) the project scope's default storage
path (`saveBookmarksInProject` off) passes the non-empty `workspaceState` blob
through `JSON.parse` with no try/catch, so the load **throws** instead of
producing the empty store — the code bug; whereas (2) the project-file path
catches and returns the freshly constructed empty controller, and (3) the global
scope's `load` resets its store to `[]` — the recovery the claim (and the spec's
error-handling design, which the two guarded paths implement) prescribes. -/
theorem c9_load_malformed_outcomes {α J : Type} (newController : α)
    (loadFrom : α → J → Bool → α) (projectFileExists : Bool)
    (projectRead : Except Unit J) :
    loadBookmarks newController loadFrom false projectFileExists projectRead
        false (.error ()) = .error () ∧
    loadBookmarks newController loadFrom true true (.error ()) false
        (.error ()) = .ok newController ∧
    (∀ (normalizePath : String → String) (prior : List GlobalFile),
      loadGlobalFiles normalizePath prior false .parseError = []) :=
  ⟨rfl, rfl, fun _ _ => rfl⟩

/-! ## Claim C5: toggle with a non-empty label relabels in place -/

/-- C5 counterexample.  Toggling with a non-empty label at a line that already has
a bookmark does **not** update the stored column: with a stored bookmark
`{line 5, column 0}` and `toggle(line 5, column 7, label "new")`, the store keeps
column `0` (only the label changes), refuting the claim that "the existing
marker's label and column are updated in place". -/
theorem c5_counterexample_column_kept :
    (toggle [⟨5, 0, "old"⟩] 5 7 (some "new")).1 = [⟨5, 0, "new"⟩] ∧
      (toggle [⟨5, 0, "old"⟩] 5 7 (some "new")).1 ≠ [⟨5, 7, "new"⟩] := by
  decide

/-- C5 amended.  If a bookmark exists at `line` and `toggle` is invoked with a
non-empty label, the existing bookmark's **label** is updated in place (its line
and column are kept), the outcome is the distinct non-removal outcome `updated`,
and the store still holds exactly one bookmark at that line. -/
theorem c5_relabel_in_place (bks : List Bookmark) (line column : Int)
    (lab : String) (hinv : StoreInv bks) (hhas : hasBookmarkAt bks line = true)
    (hlab : lab ≠ "") :
    (toggle bks line column (some lab)).2 = .updated ∧
    (toggle bks line column (some lab)).1 =
      bks.map (fun b => if b.line = line then { b with label := lab } else b) ∧
    (toggle bks line column (some lab)).1.countP (fun b => b.line = line) = 1 := by
  have hres : toggle bks line column (some lab) =
      (setLabelFirstByLine line lab bks, .updated) := by
    unfold toggle
    rw [if_pos hhas]
    dsimp only
    rw [if_pos hlab]
  refine ⟨by rw [hres], by rw [hres]; exact setLabelFirstByLine_eq_map hinv.linesNodup, ?_⟩
  rw [hres]
  have hnod : LinesNodup (setLabelFirstByLine line lab bks) :=
    (hinv.setLabel line lab).linesNodup
  have hhas' : hasBookmarkAt (setLabelFirstByLine line lab bks) line = true := by
    rcases hasBookmarkAt_iff.mp hhas with ⟨b, hb, hbl⟩
    rw [setLabelFirstByLine_eq_map hinv.linesNodup]
    apply hasBookmarkAt_iff.mpr
    refine ⟨if b.line = line then { b with label := lab } else b, List.mem_map_of_mem _ hb, ?_⟩
    by_cases hb2 : b.line = line <;> simp [hb2, hbl]
  exact countP_line_eq_one hnod hhas'

/-! ## Claim C7: toggle twice with no label restores the store -/

theorem mem_addBookmark_self (bks : List Bookmark) (line column : Int)
    (label : Option String) :
    ({ line := line, column := column, label := label.getD "" } : Bookmark) ∈
      addBookmark bks line column label :=
  (sortByLine_perm _).mem_iff.mpr (List.mem_append_right _ (List.mem_singleton_self _))

/-- C7.  Starting from a store satisfying the invariant with no bookmark at
`line`, toggling twice at `line` with no label argument reports `added` then
`removed`, afterwards no bookmark is at `line`, and the store equals its state
before the pair of calls. -/
theorem c7_toggle_pair_roundtrip (bks : List Bookmark) (line column : Int)
    (hinv : StoreInv bks) (hnot : hasBookmarkAt bks line = false) :
    (toggle bks line column none).2 = .added ∧
    (toggle (toggle bks line column none).1 line column none).2 = .removed ∧
    hasBookmarkAt (toggle (toggle bks line column none).1 line column none).1 line
      = false ∧
    (toggle (toggle bks line column none).1 line column none).1 = bks := by
  have h1 : toggle bks line column none = (addBookmark bks line column none, .added) := by
    unfold toggle
    rw [if_neg (by simp [hnot])]
  set s1 := addBookmark bks line column none with hs1
  have hmem : ({ line := line, column := column, label := "" } : Bookmark) ∈ s1 :=
    mem_addBookmark_self bks line column none
  have hhas1 : hasBookmarkAt s1 line = true :=
    hasBookmarkAt_iff.mpr ⟨_, hmem, rfl⟩
  have h2 : toggle s1 line column none = (removeFirstByLine line s1, .removed) := by
    unfold toggle
    rw [if_pos hhas1]
  have hinv1 : StoreInv s1 := addBookmark_inv hinv hnot
  have hback : removeFirstByLine line s1 = bks := by
    rw [removeFirstByLine_eq_filter hinv1.linesNodup]
    apply List.eq_of_perm_of_sorted
      (r := fun a b : Bookmark => a.line < b.line) ?_ ?_ hinv
    · refine ((sortByLine_perm _).filter _).trans (List.Perm.of_eq ?_)
      rw [List.filter_append]
      have hl : List.filter (fun b => decide (b.line ≠ line)) bks = bks :=
        List.filter_eq_self.mpr (fun x hx => by
          simpa using (hasBookmarkAt_eq_false_iff.mp hnot) x hx)
      simp only [hl, List.filter_cons, List.filter_nil]
      norm_num
    · have hrm := hinv1.removeFirst line
      rwa [removeFirstByLine_eq_filter hinv1.linesNodup] at hrm
  rw [h1]
  dsimp only
  rw [h2]
  refine ⟨rfl, rfl, ?_, hback⟩
  rw [hback]
  exact hnot

/-! ## Claim C6: all-lines-at-once multi-selection toggle -/

theorem mem_addBookmark_of_mem {bks : List Bookmark} {b : Bookmark}
    (h : b ∈ bks) (line column : Int) (label : Option String) :
    b ∈ addBookmark bks line column label :=
  (sortByLine_perm _).mem_iff.mpr (List.mem_append_left _ h)

theorem toggleGlobalStep_on_preserves {b : Bookmark}
    (sels : List (Int × Int)) :
    ∀ st : List Bookmark × List Int, b ∈ st.1 →
      b ∈ (sels.foldl (toggleGlobalStep (some true)) st).1 := by
  induction sels with
  | nil => exact fun st h => h
  | cons sel rest ih =>
    intro st h
    rw [List.foldl_cons]
    apply ih
    unfold toggleGlobalStep
    by_cases hmem : sel.1 ∈ st.2
    · rw [if_pos hmem]; exact h
    · rw [if_neg hmem]
      dsimp only
      by_cases hhas : hasBookmarkAt st.1 sel.1
      · rw [if_pos hhas]; exact h
      · rw [if_neg hhas]
        exact mem_addBookmark_of_mem h sel.1 sel.2 none

/-- C6.  Under the `allLinesAtOnce` multi-selection policy the "all present?"
decision is taken from the store state before the batch runs; with bookmarks at
lines `{1, 2}` and a batch toggling `{1, 2, 3}`, the result adds a bookmark at
line 3 only, leaving the bookmarks at lines 1 and 2 untouched.  Moreover, in
general, whenever some batch line lacks a bookmark initially (`forceState` is
`"on"`), every bookmark of the initial store — bookmarks at batch lines
included — survives the whole batch unchanged. -/
theorem c6_allLinesAtOnce_batch :
    (toggleGlobalCommand [⟨1, 0, "a"⟩, ⟨2, 0, "b"⟩] [(1, 0), (2, 0), (3, 4)] true =
      [⟨1, 0, "a"⟩, ⟨2, 0, "b"⟩, ⟨3, 4, ""⟩]) ∧
    (∀ (bks : List Bookmark) (sels : List (Int × Int)),
      sels.length > 1 →
      sels.all (fun s => hasBookmarkAt bks s.1) = false →
      ∀ b ∈ bks, b ∈ toggleGlobalCommand bks sels true) := by
  constructor
  · decide
  · intro bks sels hlen hnotall b hb
    unfold toggleGlobalCommand
    rw [if_pos (by exact ⟨rfl, hlen⟩), hnotall]
    exact toggleGlobalStep_on_preserves sels (bks, []) hb

/-- Witness for `c6_allLinesAtOnce_batch`: the hypotheses of its general part hold
at the store `{1, 2}` and batch `{1, 2, 3}`, where the batch result is exactly
`{1, 2, 3}` and the original bookmark at line 1 indeed survives. -/
theorem c6_allLinesAtOnce_batch_witness :
    (([(1, 0), (2, 0), (3, 4)] : List (Int × Int)).length > 1) ∧
    (toggleGlobalCommand [⟨1, 0, "a"⟩, ⟨2, 0, "b"⟩] [(1, 0), (2, 0), (3, 4)] true =
      [⟨1, 0, "a"⟩, ⟨2, 0, "b"⟩, ⟨3, 4, ""⟩]) ∧
    ((⟨1, 0, "a"⟩ : Bookmark) ∈
      toggleGlobalCommand [⟨1, 0, "a"⟩, ⟨2, 0, "b"⟩] [(1, 0), (2, 0), (3, 4)] true) :=
  ⟨by decide, c6_allLinesAtOnce_batch.1,
    c6_allLinesAtOnce_batch.2 [⟨1, 0, "a"⟩, ⟨2, 0, "b"⟩] [(1, 0), (2, 0), (3, 4)]
      (by decide) (by decide) ⟨1, 0, "a"⟩ (by decide)⟩

/-! ## Claim C4: forward navigation -/

theorem find?_gt_eq_of_min {curLine : Int} :
    ∀ {l : List Bookmark} {b : Bookmark}, StoreInv l → b ∈ l → curLine < b.line →
      (∀ b' ∈ l, curLine < b'.line → b.line ≤ b'.line) →
      l.find? (fun x => decide (curLine < x.line)) = some b := by
  intro l
  induction l with
  | nil => intro b _ hb; simp at hb
  | cons a as ih =>
    intro b hinv hb hgt hmin
    rcases List.pairwise_cons.mp hinv with ⟨ha, has⟩
    rcases List.mem_cons.mp hb with rfl | hb'
    · rw [List.find?_cons_of_pos _ (by simpa using hgt)]
    · have hfalse : ¬ (curLine < a.line) := by
        intro hacand
        have h1 : b.line ≤ a.line := hmin a (by simp) hacand
        have h2 : a.line < b.line := ha b hb'
        omega
      rw [List.find?_cons_of_neg _ (by simpa using hfalse)]
      exact ih has hb' hgt (fun b' hb'' => hmin b' (List.mem_cons_of_mem a hb''))

/-- C4.  For a non-empty store satisfying the invariant, with
`navigateThroughAllFiles = false`, forward navigation (a) returns the position
of the minimal-line bookmark strictly past the cursor line when one exists
(so a bookmark exactly at the cursor's line is never re-selected), and
(b) when every bookmark line is at most the cursor line, wraps to the first
bookmark of the list if `wrapNavigation` is on and returns the
`NO_BOOKMARKS_AFTER` sentinel otherwise. -/
theorem c4_forward_navigation (bks : List Bookmark) (curLine curColumn : Int)
    (wrap : Bool) (hne : bks ≠ []) (hinv : StoreInv bks) :
    (∀ b ∈ bks, curLine < b.line →
      (∀ b' ∈ bks, curLine < b'.line → b.line ≤ b'.line) →
      nextBookmark bks curLine curColumn .forward false wrap = .at b.line b.column) ∧
    ((∀ b ∈ bks, b.line ≤ curLine) →
      nextBookmark bks curLine curColumn .forward false wrap =
        if wrap then .at (bks.headD default).line (bks.headD default).column
        else .noBookmarksAfter) := by
  constructor
  · intro b hb hgt hmin
    unfold nextBookmark
    rw [if_neg (by simpa using hne)]
    rw [find?_gt_eq_of_min hinv hb hgt hmin]
  · intro hall
    unfold nextBookmark
    rw [if_neg (by simpa using hne)]
    have hnone : bks.find? (fun x => decide (curLine < x.line)) = none := by
      rw [List.find?_eq_none]
      intro x hx
      simpa using Int.not_lt.mpr (hall x hx)
    rw [hnone]
    cases wrap <;> simp

/-- Witness for `c4_forward_navigation`: bookmarks at lines `{3, 7, 12}` with the
cursor on line 12 (the last bookmark) yield the position of line 3 with
`wrapNavigation` on, and the `NO_BOOKMARKS_AFTER` sentinel with it off. -/
theorem c4_forward_navigation_witness :
    nextBookmark [⟨3, 1, ""⟩, ⟨7, 2, ""⟩, ⟨12, 3, ""⟩] 12 0 .forward false true =
      .at 3 1 ∧
    nextBookmark [⟨3, 1, ""⟩, ⟨7, 2, ""⟩, ⟨12, 3, ""⟩] 12 0 .forward false false =
      .noBookmarksAfter := by
  have h1 := (c4_forward_navigation [⟨3, 1, ""⟩, ⟨7, 2, ""⟩, ⟨12, 3, ""⟩] 12 0 true
    (by decide) (by decide)).2 (by decide)
  have h2 := (c4_forward_navigation [⟨3, 1, ""⟩, ⟨7, 2, ""⟩, ⟨12, 3, ""⟩] 12 0 false
    (by decide) (by decide)).2 (by decide)
  exact ⟨h1.trans (by decide), h2.trans (by decide)⟩

/-! ## Claim C8: pruning of invalid bookmarks in `listBookmarks` -/

theorem eraseIdx_length_sub_one :
    ∀ l : List Bookmark, l.eraseIdx (l.length - 1) = l.dropLast := by
  intro l
  induction l with
  | nil => rfl
  | cons a as ih =>
    cases as with
    | nil => rfl
    | cons b bs =>
      show (a :: b :: bs).eraseIdx (bs.length + 1) = _
      rw [List.eraseIdx_cons_succ]
      have : (b :: bs).length - 1 = bs.length := by simp
      rw [← this, ih]
      rfl

theorem jsSpliceOne_neg_one (l : List Bookmark) :
    jsSpliceOne (-1) l = l.dropLast := by
  unfold jsSpliceOne
  have : ((l.length : Int) + -1).toNat = l.length - 1 := by omega
  simp only [show ((-1 : Int) < 0) = True by simp, if_pos trivial]
  rw [this]
  exact eraseIdx_length_sub_one l

theorem foldl_spliceNeg_eq_dropLastN (xs : List Int) :
    ∀ l : List Bookmark,
      xs.foldl (fun cur _ => jsSpliceOne (jsIndexOfFreshObject cur) cur) l =
        dropLastN xs.length l := by
  induction xs with
  | nil => intro l; rfl
  | cons x rest ih =>
    intro l
    rw [List.foldl_cons, ih]
    show dropLastN rest.length (jsSpliceOne (-1) l) = _
    rw [jsSpliceOne_neg_one]
    rfl

theorem dropLastN_invalid_eq_filter {lineCount : Int} :
    ∀ {bks : List Bookmark}, StoreInv bks →
      dropLastN (bks.filter (fun b => !decide (b.line + 1 ≤ lineCount))).length bks =
        bks.filter (fun b => decide (b.line + 1 ≤ lineCount)) := by
  intro bks
  induction bks using List.reverseRecOn with
  | nil => intro _; rfl
  | append_singleton bs b ih =>
    intro hinv
    have hbs : StoreInv bs := List.Pairwise.sublist (List.sublist_append_left bs [b]) hinv
    have hlt : ∀ a ∈ bs, a.line < b.line := by
      rcases List.pairwise_append.mp hinv with ⟨_, _, hcross⟩
      exact fun a ha => hcross a ha b (List.mem_singleton_self b)
    by_cases hb : b.line + 1 ≤ lineCount
    · have hall : ∀ a ∈ bs, a.line + 1 ≤ lineCount := by
        intro a ha
        have := hlt a ha
        omega
      have hinvnil : (bs ++ [b]).filter (fun x => !decide (x.line + 1 ≤ lineCount)) = [] := by
        apply List.filter_eq_nil_iff.mpr
        intro a ha
        rcases List.mem_append.mp ha with h | h
        · simpa using hall a h
        · rcases List.mem_singleton.mp h with rfl
          simpa using hb
      rw [hinvnil]
      show bs ++ [b] = _
      symm
      apply List.filter_eq_self.mpr
      intro a ha
      rcases List.mem_append.mp ha with h | h
      · simpa using hall a h
      · rcases List.mem_singleton.mp h with rfl
        simpa using hb
    · rw [List.filter_append]
      have hbf : [b].filter (fun x => !decide (x.line + 1 ≤ lineCount)) = [b] := by
        simp [hb]
      have hbv : [b].filter (fun x => decide (x.line + 1 ≤ lineCount)) = [] := by
        simp [hb]
      rw [hbf]
      have hlen : (bs.filter (fun x => !decide (x.line + 1 ≤ lineCount)) ++ [b]).length
          = (bs.filter (fun x => !decide (x.line + 1 ≤ lineCount))).length + 1 := by
        simp
      rw [hlen]
      have hrhs : (bs ++ [b]).filter (fun x => decide (x.line + 1 ≤ lineCount))
          = bs.filter (fun x => decide (x.line + 1 ≤ lineCount)) := by
        rw [List.filter_append, hbv, List.append_nil]
      rw [hrhs]
      show dropLastN _ (bs ++ [b]).dropLast = _
      rw [List.dropLast_concat]
      exact ih hbs

/-- C8.  For a store satisfying the invariant, the pruning pass of
`listBookmarks` removes exactly the bookmarks pointing past the end of the
document (`line + 1 > doc.lineCount`) and keeps exactly the bookmarks within
the document's line range.  (The source splices at
`indexOf(<Bookmark>{line: …})`, which is always `-1`, i.e. the last element;
because invalid bookmarks form a suffix of a sorted store, repeating this once
per invalid entry removes precisely the invalid bookmarks.) -/
theorem c8_prune_removes_exactly_invalid (bks : List Bookmark) (lineCount : Int)
    (hinv : StoreInv bks) :
    listBookmarksPrune bks lineCount =
      bks.filter (fun b => b.line + 1 ≤ lineCount) := by
  unfold listBookmarksPrune
  rw [foldl_spliceNeg_eq_dropLastN, List.length_map]
  exact dropLastN_invalid_eq_filter hinv

/-- Witness for `c8_prune_removes_exactly_invalid`: bookmarks at lines `{2, 5, 9}`
against a 6-line document: the bookmark at line 9 (1-based line 10 > 6) is
invalid and is removed; those at lines 2 and 5 are kept. -/
theorem c8_prune_witness :
    listBookmarksPrune [⟨2, 0, ""⟩, ⟨5, 0, ""⟩, ⟨9, 0, ""⟩] 6 =
      [⟨2, 0, ""⟩, ⟨5, 0, ""⟩] :=
  (c8_prune_removes_exactly_invalid [⟨2, 0, ""⟩, ⟨5, 0, ""⟩, ⟨9, 0, ""⟩] 6
    (by decide)).trans (by decide)

/-- Witness for `c5_relabel_in_place`: store `{5 ↦ (column 0, "old")}`, toggle at
line 5, column 7, label `"new"`: outcome `updated`, label replaced in place,
exactly one bookmark at line 5. -/
theorem c5_relabel_in_place_witness :
    (toggle [⟨5, 0, "old"⟩] 5 7 (some "new")).2 = .updated ∧
    (toggle [⟨5, 0, "old"⟩] 5 7 (some "new")).1 =
      [⟨5, 0, "old"⟩].map
        (fun b => if b.line = 5 then { b with label := "new" } else b) ∧
    (toggle [⟨5, 0, "old"⟩] 5 7 (some "new")).1.countP (fun b => b.line = 5) = 1 :=
  c5_relabel_in_place [⟨5, 0, "old"⟩] 5 7 "new" (by decide) (by decide) (by decide)

/-- Witness for `c7_toggle_pair_roundtrip`: store `{3, 9}`, toggling line 5 twice
reports `added` then `removed` and restores the store. -/
theorem c7_toggle_pair_roundtrip_witness :
    (toggle [⟨3, 0, "x"⟩, ⟨9, 0, "y"⟩] 5 2 none).2 = .added ∧
    (toggle (toggle [⟨3, 0, "x"⟩, ⟨9, 0, "y"⟩] 5 2 none).1 5 2 none).2 = .removed ∧
    hasBookmarkAt
      (toggle (toggle [⟨3, 0, "x"⟩, ⟨9, 0, "y"⟩] 5 2 none).1 5 2 none).1 5 = false ∧
    (toggle (toggle [⟨3, 0, "x"⟩, ⟨9, 0, "y"⟩] 5 2 none).1 5 2 none).1 =
      [⟨3, 0, "x"⟩, ⟨9, 0, "y"⟩] :=
  c7_toggle_pair_roundtrip [⟨3, 0, "x"⟩, ⟨9, 0, "y"⟩] 5 2 (by decide) (by decide)

/-! ## Claim C2: pure insertion shifting -/

theorem applyContentChange_pure_insert {bks : List Bookmark} {c : ContentChange}
    {keep blank : Bool} (hpure : c.endLine = c.startLine)
    (hk : c.textNewlines ≠ 0) :
    applyContentChange keep c blank bks =
      stickyInsertShift c.startLine (effectiveChar c.startChar blank)
        c.textNewlines bks := by
  unfold applyContentChange
  have hdel : ¬(c.startLine < c.endLine) := by omega
  rw [if_neg (by intro hcontra; exact hcontra.1 hk)]
  dsimp only
  rw [if_pos hk, if_neg hdel]

/-- C2.  A pure insertion (replacement text containing `k ≥ 1` newlines, empty
deleted line range) at a non-negative column, with the edited line not blank
after the edit (so the column heuristic does not fire): every bookmark whose
line is strictly greater than the insertion start line is shifted down by `k`,
a bookmark exactly on the start line is shifted iff the insertion column is 0,
and all other bookmarks (and every column and label) are unchanged. -/
theorem c2_pure_insertion_shift (bks : List Bookmark) (c : ContentChange)
    (keep : Bool) (hpure : c.endLine = c.startLine) (hk : c.textNewlines ≠ 0)
    (hchar : 0 ≤ c.startChar) :
    applyContentChange keep c false bks =
      bks.map (fun b =>
        if c.startLine < b.line ∨ (b.line = c.startLine ∧ c.startChar = 0)
        then { b with line := b.line + c.textNewlines } else b) := by
  rw [applyContentChange_pure_insert hpure hk]
  have heff : effectiveChar c.startChar false = c.startChar := by
    unfold effectiveChar
    rw [if_neg (by simp)]
  rw [heff]
  unfold stickyInsertShift
  apply List.map_congr_left
  intro b _
  have hiff : ((c.startLine < b.line ∧ 0 < c.startChar) ∨
      (c.startLine ≤ b.line ∧ c.startChar = 0)) ↔
      (c.startLine < b.line ∨ (b.line = c.startLine ∧ c.startChar = 0)) := by
    omega
  exact if_congr hiff rfl rfl

/-- Witness for `c2_pure_insertion_shift`: bookmarks at lines `{2, 5, 9}`;
inserting 3 newlines at column 0 of line 5 yields `{2, 8, 12}`, and the same
insertion at column 3 of line 5 yields `{2, 5, 12}`. -/
theorem c2_pure_insertion_shift_witness :
    applyContentChange false ⟨5, 5, 0, 3⟩ false [⟨2, 0, ""⟩, ⟨5, 0, ""⟩, ⟨9, 0, ""⟩] =
      [⟨2, 0, ""⟩, ⟨8, 0, ""⟩, ⟨12, 0, ""⟩] ∧
    applyContentChange false ⟨5, 5, 3, 3⟩ false [⟨2, 0, ""⟩, ⟨5, 0, ""⟩, ⟨9, 0, ""⟩] =
      [⟨2, 0, ""⟩, ⟨5, 0, ""⟩, ⟨12, 0, ""⟩] :=
  ⟨(c2_pure_insertion_shift [⟨2, 0, ""⟩, ⟨5, 0, ""⟩, ⟨9, 0, ""⟩] ⟨5, 5, 0, 3⟩ false
      (by decide) (by decide) (by decide)).trans (by decide),
   (c2_pure_insertion_shift [⟨2, 0, ""⟩, ⟨5, 0, ""⟩, ⟨9, 0, ""⟩] ⟨5, 5, 3, 3⟩ false
      (by decide) (by decide) (by decide)).trans (by decide)⟩

/-! ## Claim C3: helper lemmas for the deletion passes -/

theorem inDelRange_iff {s e : Int} {b : Bookmark} :
    inDelRange s e b = true ↔ s ≤ b.line ∧ b.line < e := by
  simp [inDelRange]

theorem find?_congr_mem {p q : Bookmark → Bool} :
    ∀ {l : List Bookmark}, (∀ a ∈ l, p a = q a) → l.find? p = l.find? q := by
  intro l
  induction l with
  | nil => intro _; rfl
  | cons a as ih =>
    intro h
    have ha := h a (by simp)
    by_cases hpa : p a = true
    · rw [List.find?_cons_of_pos _ hpa, List.find?_cons_of_pos _ (ha ▸ hpa)]
    · rw [List.find?_cons_of_neg _ hpa,
        List.find?_cons_of_neg _ (by rw [← ha]; exact hpa)]
      exact ih (fun x hx => h x (List.mem_cons_of_mem a hx))

theorem find?_append_cons {A : List Bookmark} {m : Bookmark} {B : List Bookmark}
    {p : Bookmark → Bool} (hA : ∀ a ∈ A, p a = false) (hm : p m = true) :
    (A ++ m :: B).find? p = some m := by
  induction A with
  | nil => exact List.find?_cons_of_pos _ hm
  | cons a as ih =>
    rw [List.cons_append,
      List.find?_cons_of_neg _ (by rw [hA a (by simp)]; simp)]
    exact ih (fun x hx => hA x (List.mem_cons_of_mem a hx))

theorem split_at_line {bks : List Bookmark} {s : Int}
    (h : hasBookmarkAt bks s = true) :
    ∃ A m B, bks = A ++ m :: B ∧ m.line = s ∧ ∀ a ∈ A, a.line ≠ s := by
  induction bks with
  | nil => simp [hasBookmarkAt] at h
  | cons b bs ih =>
    by_cases hb : b.line = s
    · exact ⟨[], b, bs, by simp, hb, by simp⟩
    · have h' : hasBookmarkAt bs s = true := by
        rcases hasBookmarkAt_iff.mp h with ⟨x, hx, hxl⟩
        rcases List.mem_cons.mp hx with rfl | hx'
        · exact absurd hxl hb
        · exact hasBookmarkAt_iff.mpr ⟨x, hx', hxl⟩
      rcases ih h' with ⟨A, m, B, heq, hml, hA⟩
      refine ⟨b :: A, m, B, by rw [heq]; rfl, hml, ?_⟩
      intro a ha
      rcases List.mem_cons.mp ha with rfl | ha'
      · exact hb
      · exact hA a ha'

theorem collapseFirstByLine_append {A : List Bookmark} {m : Bookmark}
    {B : List Bookmark} {s e : Int} (hm : m.line = s) (hA : ∀ a ∈ A, a.line ≠ s) :
    collapseFirstByLine s e (A ++ m :: B) = A ++ { m with line := e } :: B := by
  induction A with
  | nil => simp [collapseFirstByLine, hm]
  | cons a as ih =>
    rw [List.cons_append]
    show collapseFirstByLine s e (a :: (as ++ m :: B)) = _
    rw [collapseFirstByLine]
    rw [if_neg (hA a (by simp))]
    rw [ih (fun x hx => hA x (List.mem_cons_of_mem a hx))]
    rfl

theorem deleteRangeStep_not_has {bks : List Bookmark} {keep : Bool} {e line : Int}
    (h : hasBookmarkAt bks line = false) :
    deleteRangeStep keep e bks line = bks := by
  unfold deleteRangeStep
  rw [if_neg (by simp [h])]

theorem deleteRangeStep_false_eq {bks : List Bookmark} {e line : Int} :
    deleteRangeStep false e bks line = removeFirstByLine line bks := by
  unfold deleteRangeStep
  by_cases h : hasBookmarkAt bks line
  · rw [if_pos h]
    simp
  · rw [if_neg h, removeFirstByLine_of_not_has (by simpa using h)]

theorem deleteRangeStep_hasEnd_eq {bks : List Bookmark} {e line : Int}
    (hE : hasBookmarkAt bks e = true) :
    deleteRangeStep true e bks line = removeFirstByLine line bks := by
  unfold deleteRangeStep
  by_cases h : hasBookmarkAt bks line
  · rw [if_pos h, if_pos rfl, if_pos hE]
  · rw [if_neg h, removeFirstByLine_of_not_has (by simpa using h)]

theorem not_inDelRange_eq_decide (s e : Int) (b : Bookmark) :
    (!inDelRange s e b) = decide (b.line < s ∨ e ≤ b.line) := by
  unfold inDelRange
  by_cases h1 : s ≤ b.line <;> by_cases h2 : b.line < e <;>
    simp [h1, h2] <;> omega

theorem deleteRangePass_false_eq_filter {e : Int} :
    ∀ (n : Nat) (s : Int) (bks : List Bookmark), LinesNodup bks →
      deleteRangePass false e n s bks =
        bks.filter (fun b => !inDelRange s (s + n) b) := by
  intro n
  induction n with
  | zero =>
    intro s bks _
    symm
    apply List.filter_eq_self.mpr
    intro b _
    rw [not_inDelRange_eq_decide]
    exact decide_eq_true (by omega)
  | succ n ih =>
    intro s bks hnod
    show deleteRangePass false e n (s + 1) (deleteRangeStep false e bks s) = _
    rw [deleteRangeStep_false_eq, removeFirstByLine_eq_filter hnod]
    have hnod2 : LinesNodup (bks.filter (fun b => b.line ≠ s)) :=
      List.Pairwise.sublist (List.filter_sublist bks) hnod
    rw [ih (s + 1) _ hnod2, List.filter_filter]
    apply List.filter_congr
    intro b _
    rw [not_inDelRange_eq_decide, not_inDelRange_eq_decide, Bool.eq_iff_iff]
    simp only [Bool.and_eq_true, decide_eq_true_eq]
    omega

theorem deleteRangePass_keep_hasEnd {e : Int} :
    ∀ (n : Nat) (s : Int) (bks : List Bookmark), LinesNodup bks →
      hasBookmarkAt bks e = true → (e < s ∨ s + n ≤ e) →
      deleteRangePass true e n s bks =
        bks.filter (fun b => !inDelRange s (s + n) b) := by
  intro n
  induction n with
  | zero =>
    intro s bks _ _ _
    symm
    apply List.filter_eq_self.mpr
    intro b _
    rw [not_inDelRange_eq_decide]
    exact decide_eq_true (by omega)
  | succ n ih =>
    intro s bks hnod hE hrange
    show deleteRangePass true e n (s + 1) (deleteRangeStep true e bks s) = _
    rw [deleteRangeStep_hasEnd_eq hE, removeFirstByLine_eq_filter hnod]
    have hnod2 : LinesNodup (bks.filter (fun b => b.line ≠ s)) :=
      List.Pairwise.sublist (List.filter_sublist bks) hnod
    have hE2 : hasBookmarkAt (bks.filter (fun b => b.line ≠ s)) e = true := by
      rcases hasBookmarkAt_iff.mp hE with ⟨x, hx, hxl⟩
      apply hasBookmarkAt_iff.mpr
      refine ⟨x, List.mem_filter.mpr ⟨hx, ?_⟩, hxl⟩
      simp only [decide_eq_true_eq]
      omega
    rw [ih (s + 1) _ hnod2 hE2 (by omega), List.filter_filter]
    apply List.filter_congr
    intro b _
    rw [not_inDelRange_eq_decide, not_inDelRange_eq_decide, Bool.eq_iff_iff]
    simp only [Bool.and_eq_true, decide_eq_true_eq]
    omega

theorem deleteRangePass_keep_eq {e : Int} :
    ∀ (n : Nat) (s : Int) (bks : List Bookmark), StoreInv bks → s + n ≤ e →
      deleteRangePass true e n s bks =
        match bks.find? (inDelRange s (s + n)) with
        | none => bks
        | some m =>
          if hasBookmarkAt bks e then
            bks.filter (fun b => !inDelRange s (s + n) b)
          else
            bks.filter (fun b => decide (b.line < s)) ++
              { m with line := e } :: bks.filter (fun b => decide (s + n ≤ b.line)) := by
  intro n
  induction n with
  | zero =>
    intro s bks _ _
    have hnone : bks.find? (inDelRange s (s + ((0 : Nat) : Int))) = none := by
      rw [List.find?_eq_none]
      intro x _
      rw [inDelRange_iff]
      omega
    rw [hnone]
    rfl
  | succ n ih =>
    intro s bks hinv hle
    show deleteRangePass true e n (s + 1) (deleteRangeStep true e bks s) = _
    by_cases hs : hasBookmarkAt bks s = true
    · -- a bookmark sits at line s
      obtain ⟨A, m₀, B, heq, hm₀, hA⟩ := split_at_line hs
      subst heq
      obtain ⟨hpwA, hpwMB, hcross⟩ := List.pairwise_append.mp hinv
      have hAlt : ∀ a ∈ A, a.line < s := by
        intro a ha
        have h1 := hcross a ha m₀ (List.mem_cons_self m₀ B)
        omega
      obtain ⟨hm₀B, hpwB⟩ := List.pairwise_cons.mp hpwMB
      have hBgt : ∀ b ∈ B, s < b.line := by
        intro b hb
        have h1 := hm₀B b hb
        omega
      have hfind : (A ++ m₀ :: B).find? (inDelRange s (s + ((n + 1 : Nat) : Int)))
          = some m₀ := by
        apply find?_append_cons
        · intro a ha
          have h1 := hAlt a ha
          rw [← Bool.not_eq_true]
          intro hcontra
          rw [inDelRange_iff] at hcontra
          omega
        · rw [inDelRange_iff]
          omega
      rw [hfind]
      dsimp only
      by_cases hE : hasBookmarkAt (A ++ m₀ :: B) e = true
      · rw [if_pos hE]
        rw [deleteRangeStep_hasEnd_eq hE, removeFirstByLine_eq_filter hinv.linesNodup]
        have hnod2 : LinesNodup ((A ++ m₀ :: B).filter (fun b => b.line ≠ s)) :=
          List.Pairwise.sublist (List.filter_sublist _) hinv.linesNodup
        have hE2 : hasBookmarkAt
            ((A ++ m₀ :: B).filter (fun b => b.line ≠ s)) e = true := by
          rcases hasBookmarkAt_iff.mp hE with ⟨x, hx, hxl⟩
          apply hasBookmarkAt_iff.mpr
          refine ⟨x, List.mem_filter.mpr ⟨hx, ?_⟩, hxl⟩
          simp only [decide_eq_true_eq]
          omega
        rw [deleteRangePass_keep_hasEnd n (s + 1) _ hnod2 hE2 (by omega),
          List.filter_filter]
        apply List.filter_congr
        intro b _
        rw [not_inDelRange_eq_decide, not_inDelRange_eq_decide, Bool.eq_iff_iff]
        simp only [Bool.and_eq_true, decide_eq_true_eq]
        omega
      · rw [if_neg hE]
        have hEf : hasBookmarkAt (A ++ m₀ :: B) e = false := by
          simpa using hE
        have hnoe : ∀ b ∈ A ++ m₀ :: B, b.line ≠ e :=
          hasBookmarkAt_eq_false_iff.mp hEf
        have hstep : deleteRangeStep true e (A ++ m₀ :: B) s =
            A ++ { m₀ with line := e } :: B := by
          unfold deleteRangeStep
          rw [if_pos hs, if_pos rfl, if_neg (by simp [hEf])]
          exact collapseFirstByLine_append hm₀ hA
        rw [hstep]
        obtain ⟨hnodA, hnodMB, hcrossne⟩ := List.pairwise_append.mp hinv.linesNodup
        obtain ⟨hm₀ne, hnodB⟩ := List.pairwise_cons.mp hnodMB
        have hnodL : LinesNodup (A ++ { m₀ with line := e } :: B) := by
          rw [LinesNodup, List.pairwise_append]
          refine ⟨hnodA, List.pairwise_cons.mpr ⟨?_, hnodB⟩, ?_⟩
          · intro b hb
            have h1 := hnoe b (List.mem_append_right A (List.mem_cons_of_mem m₀ hb))
            simpa using fun h2 => h1 h2.symm
          · intro a ha b hb
            rcases List.mem_cons.mp hb with rfl | hb'
            · have h1 := hnoe a (List.mem_append_left _ ha)
              simpa using h1
            · exact hcrossne a ha b (List.mem_cons_of_mem m₀ hb')
        have hEL : hasBookmarkAt (A ++ { m₀ with line := e } :: B) e = true :=
          hasBookmarkAt_iff.mpr
            ⟨{ m₀ with line := e },
             List.mem_append_right A (List.mem_cons_self _ B), rfl⟩
        rw [deleteRangePass_keep_hasEnd n (s + 1) _ hnodL hEL (by omega)]
        rw [List.filter_append, List.filter_cons]
        rw [if_pos (by
          rw [not_inDelRange_eq_decide]
          exact decide_eq_true (Or.inr (by show s + 1 + (n : Int) ≤ e; omega)))]
        have hAkeep : A.filter (fun b => !inDelRange (s + 1) (s + 1 + (n : Int)) b)
            = A := by
          apply List.filter_eq_self.mpr
          intro a ha
          have h1 := hAlt a ha
          rw [not_inDelRange_eq_decide]
          exact decide_eq_true (by omega)
        have hfiltlt : (A ++ m₀ :: B).filter (fun b => decide (b.line < s)) = A := by
          rw [List.filter_append, List.filter_cons]
          rw [if_neg (by simp only [decide_eq_true_eq]; omega)]
          have hBnil : B.filter (fun b => decide (b.line < s)) = [] := by
            apply List.filter_eq_nil_iff.mpr
            intro b hb
            have h1 := hBgt b hb
            simp only [decide_eq_true_eq]
            omega
          rw [hBnil]
          have hAself : A.filter (fun b => decide (b.line < s)) = A := by
            apply List.filter_eq_self.mpr
            intro a ha
            exact decide_eq_true (hAlt a ha)
          rw [hAself, List.append_nil]
        have hfiltge : (A ++ m₀ :: B).filter
              (fun b => decide (s + ((n + 1 : Nat) : Int) ≤ b.line)) =
            B.filter (fun b => decide (s + ((n + 1 : Nat) : Int) ≤ b.line)) := by
          rw [List.filter_append, List.filter_cons]
          rw [if_neg (by simp only [decide_eq_true_eq]; omega)]
          have hAnil : A.filter (fun b => decide (s + ((n + 1 : Nat) : Int) ≤ b.line))
              = [] := by
            apply List.filter_eq_nil_iff.mpr
            intro a ha
            have h1 := hAlt a ha
            simp only [decide_eq_true_eq]
            omega
          rw [hAnil, List.nil_append]
        have hBcongr : B.filter (fun b => !inDelRange (s + 1) (s + 1 + (n : Int)) b)
            = B.filter (fun b => decide (s + ((n + 1 : Nat) : Int) ≤ b.line)) := by
          apply List.filter_congr
          intro b hb
          have h1 := hBgt b hb
          rw [not_inDelRange_eq_decide, Bool.eq_iff_iff]
          simp only [decide_eq_true_eq]
          omega
        rw [hAkeep, hfiltlt, hfiltge, hBcongr]
    · -- no bookmark at line s
      have hsf : hasBookmarkAt bks s = false := by simpa using hs
      rw [deleteRangeStep_not_has hsf]
      rw [ih (s + 1) bks hinv (by omega)]
      have hbnes : ∀ b ∈ bks, b.line ≠ s := hasBookmarkAt_eq_false_iff.mp hsf
      have hpred : ∀ b ∈ bks,
          inDelRange (s + 1) (s + 1 + (n : Int)) b =
            inDelRange s (s + ((n + 1 : Nat) : Int)) b := by
        intro b hb
        have h1 := hbnes b hb
        unfold inDelRange
        rw [Bool.eq_iff_iff]
        simp only [Bool.and_eq_true, decide_eq_true_eq]
        omega
      rw [find?_congr_mem hpred]
      cases hfind : bks.find? (inDelRange s (s + ((n + 1 : Nat) : Int))) with
      | none => rfl
      | some m =>
        dsimp only
        by_cases hE : hasBookmarkAt bks e = true
        · rw [if_pos hE, if_pos hE]
          apply List.filter_congr
          intro b hb
          rw [hpred b hb]
        · rw [if_neg hE, if_neg hE]
          have h1 : bks.filter (fun b => decide (b.line < s + 1)) =
              bks.filter (fun b => decide (b.line < s)) := by
            apply List.filter_congr
            intro b hb
            have h2 := hbnes b hb
            rw [Bool.eq_iff_iff]
            simp only [decide_eq_true_eq]
            omega
          have h2 : bks.filter (fun b => decide (s + 1 + (n : Int) ≤ b.line)) =
              bks.filter (fun b => decide (s + ((n + 1 : Nat) : Int) ≤ b.line)) := by
            apply List.filter_congr
            intro b _
            rw [Bool.eq_iff_iff]
            simp only [decide_eq_true_eq]
            omega
          rw [h1, h2]

theorem effectiveChar_nonneg {startChar : Int} {blank : Bool}
    (h : 0 ≤ startChar) : 0 ≤ effectiveChar startChar blank := by
  unfold effectiveChar
  split
  · exact le_refl 0
  · exact h

theorem applyContentChange_pure_delete {bks : List Bookmark} {c : ContentChange}
    {keep blank : Bool} (hins : c.textNewlines = 0)
    (hdel : c.startLine < c.endLine) :
    applyContentChange keep c blank bks =
      stickyDeleteShift c.startLine (effectiveChar c.startChar blank)
        (c.endLine - c.startLine)
        (deleteRangePass keep c.endLine (c.endLine - c.startLine).toNat
          c.startLine bks) := by
  unfold applyContentChange
  rw [if_neg (by intro hcontra; exact hcontra.2 hdel)]
  dsimp only
  rw [if_pos hdel, if_neg (by simp [hins])]

theorem stickyDeleteShift_eq_simple {L : List Bookmark} {s e d eff : Int}
    (hse : s < e) (heff : 0 ≤ eff) (hL : ∀ b ∈ L, b.line < s ∨ e ≤ b.line) :
    stickyDeleteShift s eff d L =
      L.map (fun b => if e ≤ b.line then { b with line := b.line - d } else b) := by
  unfold stickyDeleteShift
  apply List.map_congr_left
  intro b hb
  rcases hL b hb with h | h
  · rw [if_neg (by omega), if_neg (by omega)]
  · rw [if_pos (by omega), if_pos h]

/-- C3.  A line-span deletion of the half-open range `[startLine, endLine)` with no
inserted newlines, at a non-negative start column, on a store satisfying the
invariant.  With the keep policy disabled, exactly the bookmarks inside the
range are destroyed and every survivor at or past `endLine` is shifted up by
`endLine - startLine`.  With the keep policy enabled: if no bookmark is in the
range nothing is destroyed; if one is and a bookmark already sits at `endLine`,
the in-range bookmarks are destroyed (the collider survives and is shifted);
otherwise the first in-range bookmark is collapsed onto `endLine` and then
shifted back to `startLine`, the other in-range bookmarks are destroyed, and the
bookmarks past `endLine` are shifted up by `endLine - startLine`. -/
theorem c3_line_span_deletion (bks : List Bookmark) (c : ContentChange)
    (blank : Bool) (hinv : StoreInv bks) (hins : c.textNewlines = 0)
    (hdel : c.startLine < c.endLine) (hchar : 0 ≤ c.startChar) :
    (applyContentChange false c blank bks =
      (bks.filter (fun b => !inDelRange c.startLine c.endLine b)).map
        (fun b => if c.endLine ≤ b.line
          then { b with line := b.line - (c.endLine - c.startLine) } else b)) ∧
    (applyContentChange true c blank bks =
      match bks.find? (inDelRange c.startLine c.endLine) with
      | none =>
        bks.map (fun b => if c.endLine ≤ b.line
          then { b with line := b.line - (c.endLine - c.startLine) } else b)
      | some m =>
        if hasBookmarkAt bks c.endLine then
          (bks.filter (fun b => !inDelRange c.startLine c.endLine b)).map
            (fun b => if c.endLine ≤ b.line
              then { b with line := b.line - (c.endLine - c.startLine) } else b)
        else
          bks.filter (fun b => decide (b.line < c.startLine)) ++
            { m with line := c.startLine } ::
              (bks.filter (fun b => decide (c.endLine ≤ b.line))).map
                (fun b => { b with line := b.line - (c.endLine - c.startLine) })) := by
  have hcast : c.startLine + (((c.endLine - c.startLine).toNat : Nat) : Int)
      = c.endLine := by omega
  have heff : 0 ≤ effectiveChar c.startChar blank := effectiveChar_nonneg hchar
  constructor
  · rw [applyContentChange_pure_delete hins hdel]
    rw [deleteRangePass_false_eq_filter ((c.endLine - c.startLine).toNat)
      c.startLine bks hinv.linesNodup]
    rw [hcast]
    apply stickyDeleteShift_eq_simple hdel heff
    intro b hb
    have hp := (List.mem_filter.mp hb).2
    rw [not_inDelRange_eq_decide] at hp
    exact of_decide_eq_true hp
  · rw [applyContentChange_pure_delete hins hdel]
    rw [deleteRangePass_keep_eq ((c.endLine - c.startLine).toNat)
      c.startLine bks hinv hcast.le]
    rw [hcast]
    cases hfind : bks.find? (inDelRange c.startLine c.endLine) with
    | none =>
      dsimp only
      apply stickyDeleteShift_eq_simple hdel heff
      intro b hb
      have hnb := List.find?_eq_none.mp hfind b hb
      rw [inDelRange_iff] at hnb
      omega
    | some m =>
      dsimp only
      by_cases hE : hasBookmarkAt bks c.endLine = true
      · rw [if_pos hE, if_pos hE]
        apply stickyDeleteShift_eq_simple hdel heff
        intro b hb
        have hp := (List.mem_filter.mp hb).2
        rw [not_inDelRange_eq_decide] at hp
        exact of_decide_eq_true hp
      · rw [if_neg hE, if_neg hE]
        unfold stickyDeleteShift
        rw [List.map_append, List.map_cons]
        have h1 : (bks.filter (fun b => decide (b.line < c.startLine))).map
            (fun b =>
              if (c.startLine < b.line ∧ 0 < effectiveChar c.startChar blank) ∨
                  (c.startLine ≤ b.line ∧ effectiveChar c.startChar blank = 0)
              then { b with line := b.line - (c.endLine - c.startLine) } else b) =
            bks.filter (fun b => decide (b.line < c.startLine)) := by
          have hcg : ∀ b ∈ bks.filter (fun b => decide (b.line < c.startLine)),
              (if (c.startLine < b.line ∧ 0 < effectiveChar c.startChar blank) ∨
                  (c.startLine ≤ b.line ∧ effectiveChar c.startChar blank = 0)
               then { b with line := b.line - (c.endLine - c.startLine) } else b)
                = b := by
            intro b hb
            have hp := of_decide_eq_true ((List.mem_filter.mp hb).2)
            rw [if_neg (by omega)]
          rw [List.map_congr_left hcg]
          simp
        have h3 : (bks.filter (fun b => decide (c.endLine ≤ b.line))).map
            (fun b =>
              if (c.startLine < b.line ∧ 0 < effectiveChar c.startChar blank) ∨
                  (c.startLine ≤ b.line ∧ effectiveChar c.startChar blank = 0)
              then { b with line := b.line - (c.endLine - c.startLine) } else b) =
            (bks.filter (fun b => decide (c.endLine ≤ b.line))).map
              (fun b => { b with line := b.line - (c.endLine - c.startLine) }) := by
          apply List.map_congr_left
          intro b hb
          have hp := of_decide_eq_true ((List.mem_filter.mp hb).2)
          rw [if_pos (by omega)]
        rw [h1, h3]
        have h2 : (if (c.startLine < ({ m with line := c.endLine } : Bookmark).line ∧
                0 < effectiveChar c.startChar blank) ∨
              (c.startLine ≤ ({ m with line := c.endLine } : Bookmark).line ∧
                effectiveChar c.startChar blank = 0)
            then { ({ m with line := c.endLine } : Bookmark) with
                line := ({ m with line := c.endLine } : Bookmark).line -
                  (c.endLine - c.startLine) }
            else ({ m with line := c.endLine } : Bookmark)) =
            { m with line := c.startLine } := by
          have hproj : ({ m with line := c.endLine } : Bookmark).line = c.endLine :=
            rfl
          rw [if_pos (by rw [hproj]; omega)]
          have harith : c.endLine - (c.endLine - c.startLine) = c.startLine := by
            omega
          show ({ line := c.endLine - (c.endLine - c.startLine),
                  column := m.column, label := m.label } : Bookmark) = _
          rw [harith]
        rw [h2]

/-- Witness for `c3_line_span_deletion`: bookmarks at lines `{2, 5, 9}` with the
deletion `[4, 7)`: the policy-disabled pass yields `{2, 6}` (line 5 destroyed,
line 9 shifted to 6), the policy-enabled pass yields `{2, 4, 6}` (line 5
collapsed onto 7 and shifted to 4). -/
theorem c3_line_span_deletion_witness :
    applyContentChange false ⟨4, 7, 0, 0⟩ false
        [⟨2, 0, ""⟩, ⟨5, 0, ""⟩, ⟨9, 0, ""⟩] =
      [⟨2, 0, ""⟩, ⟨6, 0, ""⟩] ∧
    applyContentChange true ⟨4, 7, 0, 0⟩ false
        [⟨2, 0, ""⟩, ⟨5, 0, ""⟩, ⟨9, 0, ""⟩] =
      [⟨2, 0, ""⟩, ⟨4, 0, ""⟩, ⟨6, 0, ""⟩] :=
  ⟨((c3_line_span_deletion [⟨2, 0, ""⟩, ⟨5, 0, ""⟩, ⟨9, 0, ""⟩] ⟨4, 7, 0, 0⟩ false
      (by decide) (by decide) (by decide) (by decide)).1).trans (by decide),
   ((c3_line_span_deletion [⟨2, 0, ""⟩, ⟨5, 0, ""⟩, ⟨9, 0, ""⟩] ⟨4, 7, 0, 0⟩ false
      (by decide) (by decide) (by decide) (by decide)).2).trans (by decide)⟩

/-! ## Claim C1: the store invariant across mutations -/

theorem stickyInsertShift_inv {bks : List Bookmark} {s ch : Int} {k : Nat}
    (h : StoreInv bks) : StoreInv (stickyInsertShift s ch k bks) := by
  unfold stickyInsertShift StoreInv
  rw [List.pairwise_map]
  apply List.Pairwise.imp ?_ h
  intro a b hab
  by_cases hca : (s < a.line ∧ 0 < ch) ∨ (s ≤ a.line ∧ ch = 0)
  · have hcb : (s < b.line ∧ 0 < ch) ∨ (s ≤ b.line ∧ ch = 0) := by omega
    rw [if_pos hca, if_pos hcb]
    show a.line + (k : Int) < b.line + (k : Int)
    omega
  · by_cases hcb : (s < b.line ∧ 0 < ch) ∨ (s ≤ b.line ∧ ch = 0)
    · rw [if_neg hca, if_pos hcb]
      show a.line < b.line + (k : Int)
      omega
    · rw [if_neg hca, if_neg hcb]
      exact hab

theorem stickyDeleteShift_inv {bks : List Bookmark} {s e d ch : Int}
    (hse : s < e) (hd : d = e - s)
    (hshape : ∀ b ∈ bks, b.line < s ∨ e ≤ b.line) (h : StoreInv bks) :
    StoreInv (stickyDeleteShift s ch d bks) := by
  unfold stickyDeleteShift StoreInv
  rw [List.pairwise_map]
  apply List.Pairwise.imp_of_mem ?_ h
  intro a b ha hb hab
  have hsa := hshape a ha
  have hsb := hshape b hb
  by_cases hca : (s < a.line ∧ 0 < ch) ∨ (s ≤ a.line ∧ ch = 0) <;>
    by_cases hcb : (s < b.line ∧ 0 < ch) ∨ (s ≤ b.line ∧ ch = 0)
  · rw [if_pos hca, if_pos hcb]
    show a.line - d < b.line - d
    omega
  · rw [if_pos hca, if_neg hcb]
    show a.line - d < b.line
    omega
  · rw [if_neg hca, if_pos hcb]
    show a.line < b.line - d
    omega
  · rw [if_neg hca, if_neg hcb]
    exact hab

theorem deleteRangePass_inv_shape (keep : Bool) {e : Int} {bks : List Bookmark}
    (hinv : StoreInv bks) {s : Int} {n : Nat} (heq : s + n = e) :
    StoreInv (deleteRangePass keep e n s bks) ∧
      ∀ b ∈ deleteRangePass keep e n s bks, b.line < s ∨ s + n ≤ b.line := by
  cases keep
  · rw [deleteRangePass_false_eq_filter n s bks hinv.linesNodup]
    refine ⟨List.Pairwise.sublist (List.filter_sublist bks) hinv, ?_⟩
    intro b hb
    have hp := (List.mem_filter.mp hb).2
    rw [not_inDelRange_eq_decide] at hp
    exact of_decide_eq_true hp
  · rw [deleteRangePass_keep_eq n s bks hinv heq.le]
    cases hfind : bks.find? (inDelRange s (s + n)) with
    | none =>
      refine ⟨hinv, ?_⟩
      intro b hb
      have hnb := List.find?_eq_none.mp hfind b hb
      rw [inDelRange_iff] at hnb
      omega
    | some m =>
      dsimp only
      by_cases hE : hasBookmarkAt bks e = true
      · rw [if_pos hE]
        refine ⟨List.Pairwise.sublist (List.filter_sublist bks) hinv, ?_⟩
        intro b hb
        have hp := (List.mem_filter.mp hb).2
        rw [not_inDelRange_eq_decide] at hp
        exact of_decide_eq_true hp
      · rw [if_neg hE]
        have hnoe : ∀ b ∈ bks, b.line ≠ e :=
          hasBookmarkAt_eq_false_iff.mp (by simpa using hE)
        have hF1 : ∀ b ∈ bks.filter (fun b => decide (b.line < s)), b.line < s :=
          fun b hb => of_decide_eq_true (List.mem_filter.mp hb).2
        have hF2 : ∀ b ∈ bks.filter (fun b => decide (s + n ≤ b.line)), e < b.line := by
          intro b hb
          have h1 := of_decide_eq_true (List.mem_filter.mp hb).2
          have h2 := hnoe b (List.mem_filter.mp hb).1
          omega
        constructor
        · rw [StoreInv, List.pairwise_append]
          refine ⟨List.Pairwise.sublist (List.filter_sublist bks) hinv,
            List.pairwise_cons.mpr ⟨?_, List.Pairwise.sublist (List.filter_sublist bks) hinv⟩, ?_⟩
          · intro b hb
            show e < b.line
            exact hF2 b hb
          · intro a ha b hb
            have h1 := hF1 a ha
            rcases List.mem_cons.mp hb with rfl | hb2
            · show a.line < e
              omega
            · have h2 := hF2 b hb2
              omega
        · intro b hb
          rcases List.mem_append.mp hb with h1 | h1
          · exact Or.inl (hF1 b h1)
          · rcases List.mem_cons.mp h1 with rfl | h2
            · right
              show s + (n : Int) ≤ e
              omega
            · have h3 := hF2 b h2
              omega

theorem applyContentChange_inv {keep : Bool} {c : ContentChange} {blank : Bool}
    {bks : List Bookmark} (h : StoreInv bks) :
    StoreInv (applyContentChange keep c blank bks) := by
  unfold applyContentChange
  by_cases hno : ¬(c.textNewlines ≠ 0) ∧ ¬(c.startLine < c.endLine)
  · rw [if_pos hno]
    exact h
  · rw [if_neg hno]
    dsimp only
    have h1 : StoreInv (if c.textNewlines ≠ 0 then
        stickyInsertShift c.startLine (effectiveChar c.startChar blank)
          c.textNewlines bks
      else bks) := by
      split
      · exact stickyInsertShift_inv h
      · exact h
    by_cases hdel : c.startLine < c.endLine
    · rw [if_pos hdel]
      have heq : c.startLine + (((c.endLine - c.startLine).toNat : Nat) : Int)
          = c.endLine := by omega
      obtain ⟨hp1, hp2⟩ := deleteRangePass_inv_shape keep h1 heq
      rw [heq] at hp2
      exact stickyDeleteShift_inv hdel rfl hp2 hp1
    · rw [if_neg hdel]
      exact h1

theorem updateStickyGlobalBookmarks_inv {keep : Bool}
    {changes : List (ContentChange × Bool)} {bks : List Bookmark}
    (h : StoreInv bks) :
    StoreInv (updateStickyGlobalBookmarks keep changes bks) := by
  induction changes generalizing bks with
  | nil => exact h
  | cons cb rest ih =>
    show StoreInv (updateStickyGlobalBookmarks keep rest
      (applyContentChange keep cb.1 cb.2 bks))
    exact ih (applyContentChange_inv h)

/-- C1 counterexample.  `load` copies a successfully parsed array into the store
verbatim — it performs no sorting or per-line deduplication — so loading a
persisted blob whose bookmark list is not sorted completes and leaves a store
that violates the strict-sortedness invariant. -/
theorem c1_counterexample_load_unsorted :
    loadGlobalFiles id []
        false (.array [⟨"a", [⟨5, 0, ""⟩, ⟨2, 0, ""⟩]⟩]) =
      [⟨"a", [⟨5, 0, ""⟩, ⟨2, 0, ""⟩]⟩] ∧
    ¬ StoreInv [⟨5, 0, ""⟩, ⟨2, 0, ""⟩] :=
  ⟨rfl, by decide⟩

/-- C1 amended.  Every store satisfying the strict-sortedness-by-line invariant
(no two bookmarks on one line) still satisfies it after (a) any `toggle`
(add, remove or relabel), and (b) any batch of sticky adjustments
(`updateStickyGlobalBookmarks`); and (c) a completed `load` yields stores
satisfying the invariant provided every store in the parsed blob (and in the
prior registry, which an empty saved string or a non-array parse leaves in
place) already satisfies it — `load` itself restores nothing. -/
theorem c1_store_invariant_amended :
    (∀ (bks : List Bookmark) (line column : Int) (label : Option String),
      StoreInv bks → StoreInv (toggle bks line column label).1) ∧
    (∀ (keep : Bool) (changes : List (ContentChange × Bool)) (bks : List Bookmark),
      StoreInv bks → StoreInv (updateStickyGlobalBookmarks keep changes bks)) ∧
    (∀ (norm : String → String) (prior : List GlobalFile) (savedEmpty : Bool)
        (parsed : ParsedState),
      (∀ f ∈ prior, StoreInv f.bookmarks) →
      (∀ fs, parsed = .array fs → ∀ f ∈ fs, StoreInv f.bookmarks) →
      ∀ f ∈ loadGlobalFiles norm prior savedEmpty parsed, StoreInv f.bookmarks) := by
  refine ⟨fun bks line column label h => toggle_inv h,
    fun keep changes bks h => updateStickyGlobalBookmarks_inv h, ?_⟩
  intro norm prior savedEmpty parsed hprior hparsed f hf
  unfold loadGlobalFiles at hf
  by_cases hse : savedEmpty = true
  · rw [if_pos hse] at hf
    exact hprior f hf
  · rw [if_neg hse] at hf
    cases parsed with
    | parseError => simp at hf
    | notArray => exact hprior f hf
    | array fs =>
      dsimp only at hf
      rcases List.mem_map.mp hf with ⟨g, hg, rfl⟩
      exact hparsed fs rfl g hg

/-- Witness for `c1_store_invariant_amended`: concrete instances of all three
conjuncts — a toggle-add on `{2}`, a two-change sticky batch on `{2, 7}`, and
a load of a sorted one-file blob. -/
theorem c1_store_invariant_amended_witness :
    StoreInv (toggle [⟨2, 0, ""⟩] 5 1 none).1 ∧
    StoreInv (updateStickyGlobalBookmarks true
      [(⟨1, 1, 0, 2⟩, false), (⟨0, 4, 0, 0⟩, false)] [⟨2, 0, ""⟩, ⟨7, 0, ""⟩]) ∧
    StoreInv ((⟨"a", [⟨1, 0, ""⟩, ⟨4, 2, "x"⟩]⟩ : GlobalFile)).bookmarks :=
  ⟨c1_store_invariant_amended.1 [⟨2, 0, ""⟩] 5 1 none (by decide),
   c1_store_invariant_amended.2.1 true
     [(⟨1, 1, 0, 2⟩, false), (⟨0, 4, 0, 0⟩, false)] [⟨2, 0, ""⟩, ⟨7, 0, ""⟩]
     (by decide),
   c1_store_invariant_amended.2.2 id [] false
     (.array [⟨"a", [⟨1, 0, ""⟩, ⟨4, 2, "x"⟩]⟩])
     (by intro f hf; simp at hf)
     (by
       intro fs hfs f hf
       cases hfs
       rcases List.mem_singleton.mp hf with rfl
       decide)
     ⟨"a", [⟨1, 0, ""⟩, ⟨4, 2, "x"⟩]⟩ (by decide)⟩
